import Mathlib

/-!
Shallow embedding of the rustmatica region storage core (`src/region.rs`,
`src/util.rs`).  Machine integers are modelled as `Int`/`Nat`; Rust `Vec`
as `List`; panics (out-of-bounds indexing) as `Option`/no-op where noted.
-/

structure Vec3 where
  x : Int
  y : Int
  z : Int
deriving DecidableEq

structure UVec3 where
  x : Nat
  y : Nat
  z : Nat
deriving DecidableEq

instance : Add Vec3 := ⟨fun a b => ⟨a.x + b.x, a.y + b.y, a.z + b.z⟩⟩

instance : Sub Vec3 := ⟨fun a b => ⟨a.x - b.x, a.y - b.y, a.z - b.z⟩⟩

instance : HAdd Vec3 UVec3 Vec3 :=
  ⟨fun a b => ⟨a.x + (b.x : Int), a.y + (b.y : Int), a.z + (b.z : Int)⟩⟩

def Vec3.volume (v : Vec3) : Nat := v.x.natAbs * v.y.natAbs * v.z.natAbs

def Vec3.abs (v : Vec3) : UVec3 := ⟨v.x.natAbs, v.y.natAbs, v.z.natAbs⟩

def Vec3.signum (v : Vec3) : Vec3 := ⟨v.x.sign, v.y.sign, v.z.sign⟩

def Vec3.size_to (v o : Vec3) : UVec3 :=
  ⟨(v.x - o.x).natAbs + 1, (v.y - o.y).natAbs + 1, (v.z - o.z).natAbs + 1⟩

def UVec3.volume (v : UVec3) : Nat := v.x * v.y * v.z

def Vec3.volume_to (v o : Vec3) : Nat := (v.size_to o).volume

/-- Modelled from the spec: a cell value record is a name/identifier plus an
optional key-value property mapping (spec section 6); the storage core treats it
as opaque with structural equality.  (`BlockState` is declared outside `src/`.) -/
structure BlockState where
  name : String
  properties : Option (List (String × String))
deriving DecidableEq

/-- Modelled from the spec: the fixed default value bound to palette id 0,
the schema's "empty" cell value (spec section 4.3; the `block!()` macro is
declared outside `src/`). -/
def BlockState.empty : BlockState := ⟨"minecraft:air", none⟩

/-- Modelled from the spec: an auxiliary record keyed by an unsigned 3-position
with an otherwise opaque payload (spec sections 3 and 6; declared outside `src/`). -/
structure TileEntity where
  pos : UVec3
  data : List (String × String)
deriving DecidableEq

/-- Modelled from the spec: a free-floating opaque auxiliary record
(spec sections 3 and 6; declared outside `src/`). -/
structure Entity where
  data : List (String × String)
deriving DecidableEq

structure Region where
  name : String
  corner1 : Vec3
  corner2 : Vec3
  tile_entities : List TileEntity
  entities : List Entity
  palette : List BlockState
  blocks : List Nat
deriving DecidableEq

/-- Modelled from the spec: the serialized-region record exchanged with the
envelope layer (spec section 6; `schema::Region` is declared outside `src/`).
The 64-bit words of `block_states` are modelled as their unsigned values in
`Nat` (the code only ever reads bits 0..63 of each word). -/
structure RawRegion where
  position : Vec3
  size : Vec3
  block_state_palette : List BlockState
  tile_entities : List TileEntity
  entities : List Entity
  pending_fluid_ticks : List (List (String × String))
  pending_block_ticks : List (List (String × String))
  block_states : List Nat
deriving DecidableEq

/-- The per-identifier bit expansion `(0..nb).map(|bit| n >> bit & 1)`
used by both `Region::to_raw` and `Region::from_raw`. -/
def bitsOfNat (nb n : Nat) : List Nat :=
  (List.range nb).map (fun bit => n >>> bit &&& 1)

/-- The word/identifier reconstruction
`slice.iter().rev().fold(0, |acc, bit| acc << 1 | bit)`. -/
def natOfBits (l : List Nat) : Nat :=
  l.reverse.foldl (fun acc bit => acc <<< 1 ||| bit) 0

/-- Rust's slice `chunks(k)` (fuelled so that it is structurally recursive;
`chunksOf` below always supplies adequate fuel). -/
def chunksOfF (k : Nat) : Nat → List α → List (List α)
  | _, [] => []
  | 0, _ :: _ => []
  | fuel + 1, x :: xs => ((x :: xs).take k) :: chunksOfF k fuel ((x :: xs).drop k)

/-- Rust's slice `chunks(k)`: maximal runs of `k` elements, the last chunk
possibly shorter. -/
def chunksOf (k : Nat) (l : List α) : List (List α) := chunksOfF k l.length l

/-- The serialization of the identifier array performed inside `Region::to_raw`
(lines 77-85 of `region.rs`): expand each identifier to its `nb` low bits,
concatenate, chunk into 64-bit words. -/
def pack (nb : Nat) (blocks : List Nat) : List Nat :=
  (chunksOf 64 ((blocks.map (bitsOfNat nb)).flatten)).map natOfBits

/-- The hydration of the identifier array performed inside `Region::from_raw`
(lines 46-58 of `region.rs`): expand each word to 64 bits, concatenate,
chunk into `nb`-bit groups. -/
def unpack (nb : Nat) (words : List Nat) : List Nat :=
  (chunksOf nb ((words.map (bitsOfNat 64)).flatten)).map natOfBits

/-- The loop of `Region::num_bits`, fuelled (`numBitsFrom` supplies fuel `n`,
which always suffices because `n ≤ 2 ^ (2 + n)`). -/
def numBitsAux : Nat → Nat → Nat → Nat
  | 0, _, w => w
  | fuel + 1, n, w => if 1 <<< w < n then numBitsAux fuel n (w + 1) else w

/-- `Region::num_bits` as a function of the palette length: start at 2 and
increment while `1 << num_bits < n`. -/
def numBitsFrom (n : Nat) : Nat := numBitsAux n n 2

def Region.num_bits (r : Region) : Nat := numBitsFrom r.palette.length

def Region.new (name : String) (corner1 corner2 : Vec3) : Region :=
  { name := name, corner1 := corner1, corner2 := corner2,
    tile_entities := [], entities := [],
    palette := [BlockState.empty],
    blocks := List.replicate ((corner1 - corner2).volume) 0 }

def Region.to_raw (r : Region) : RawRegion :=
  let s := r.corner2 - r.corner1
  { position := r.corner1
    size := s + s.signum
    block_state_palette := r.palette
    tile_entities := r.tile_entities
    entities := r.entities
    pending_fluid_ticks := []
    pending_block_ticks := []
    block_states := pack r.num_bits r.blocks }

def Region.from_raw (raw : RawRegion) (name : String) : Region :=
  let corner1 := raw.position
  let corner2 := raw.position + raw.size - raw.size.signum
  let base := Region.new name corner1 corner2
  let withMeta : Region :=
    { base with palette := raw.block_state_palette,
                tile_entities := raw.tile_entities,
                entities := raw.entities }
  { withMeta with blocks := unpack withMeta.num_bits raw.block_states }

def Region.size (r : Region) : UVec3 := r.corner1.size_to r.corner2

def Region.min_x (r : Region) : Int := min r.corner1.x r.corner2.x

def Region.max_x (r : Region) : Int := max r.corner1.x r.corner2.x

def Region.min_y (r : Region) : Int := min r.corner1.y r.corner2.y

def Region.max_y (r : Region) : Int := max r.corner1.y r.corner2.y

def Region.min_z (r : Region) : Int := min r.corner1.z r.corner2.z

def Region.max_z (r : Region) : Int := max r.corner1.z r.corner2.z

def Region.blocks_origin (r : Region) : Vec3 := ⟨r.min_x, r.min_y, r.min_z⟩

def Region.index_to_pos (r : Region) (index : Nat) : Vec3 :=
  let s := r.size
  let p : UVec3 := ⟨index % s.x, index / (s.z * s.x), (index / s.x) % s.z⟩
  r.blocks_origin + p

def Region.pos_to_index (r : Region) (pos : Vec3) : Nat :=
  let q := (pos - r.blocks_origin).abs
  let s := r.size
  q.y * s.x * s.z + q.z * s.x + q.x

/-- `Region::get_block`; the two panicking indexings are modelled as `none`. -/
def Region.get_block (r : Region) (pos : Vec3) : Option BlockState :=
  (r.blocks[r.pos_to_index pos]?).bind (fun id => r.palette[id]?)

/-- Rust's `Iterator::position` on a list. -/
def position (p : α → Bool) : List α → Option Nat
  | [] => none
  | x :: xs => if p x then some 0 else (position p xs).map (· + 1)

/-- `Region::set_block`; the panicking write `blocks[idx] = id` is modelled by
`List.set` (a no-op when the index is out of range). -/
def Region.set_block (r : Region) (pos : Vec3) (block : BlockState) : Region :=
  let blocks_idx := r.pos_to_index pos
  match position (fun b => decide (b = block)) r.palette with
  | some idx => { r with blocks := r.blocks.set blocks_idx idx }
  | none =>
      { r with palette := r.palette ++ [block],
               blocks := r.blocks.set blocks_idx r.palette.length }

def Region.volume (r : Region) : Nat := r.corner1.volume_to r.corner2

def Region.total_blocks (r : Region) : Nat :=
  (r.blocks.filter (fun b => decide (b ≠ 0))).length

/-- One step of the `Blocks` iterator (`Blocks::next`): `None` once the index
reaches `volume`, and the `?`-propagation of failed `get`s also yields `None`. -/
def blocksNext (r : Region) (index : Nat) : Option ((Vec3 × BlockState) × Nat) :=
  if r.volume ≤ index then none
  else
    match r.blocks[index]? with
    | none => none
    | some id =>
        match r.palette[id]? with
        | none => none
        | some b => some ((r.index_to_pos index, b), index + 1)

/-- Driving the `Blocks` iterator to exhaustion (fuelled; fuel `r.volume`
suffices since every step increments the index and the iterator stops at
`volume`). -/
def blocksFrom (r : Region) : Nat → Nat → List (Vec3 × BlockState)
  | _, 0 => []
  | index, fuel + 1 =>
      match blocksNext r index with
      | none => []
      | some (item, next) => item :: blocksFrom r next fuel

/-- The full sequence produced by a fresh `Blocks` iterator (`Region::blocks()`
followed by repeated `next()`). -/
def Region.blocksList (r : Region) : List (Vec3 × BlockState) :=
  blocksFrom r 0 r.volume

/-- The claims' "position inside the box": between the canonical per-axis
minimum and maximum corners. -/
def Region.inBox (r : Region) (p : Vec3) : Prop :=
  r.min_x ≤ p.x ∧ p.x ≤ r.max_x ∧ r.min_y ≤ p.y ∧ p.y ≤ r.max_y ∧
    r.min_z ≤ p.z ∧ p.z ≤ r.max_z

instance (r : Region) (p : Vec3) : Decidable (r.inBox p) := by
  unfold Region.inBox; infer_instance

/-- Modelled from the spec: the word-aligned packing convention claimed in
spec sections 4.4 and design notes — accumulate each identifier's low
`nb` bits; when the next identifier would exceed the current word's 64 bits,
flush the word (unused high bits zero) and start the identifier in the next
word.  This follows the spec's words, for comparison with `pack` (the code's
actual packing). -/
def packAligned (nb : Nat) (blocks : List Nat) : List Nat :=
  let st := blocks.foldl
    (fun (st : List Nat × Nat × Nat) id =>
      let words := st.1
      let acc := st.2.1
      let used := st.2.2
      if 64 < used + nb then (words ++ [acc], id % 2 ^ nb, nb)
      else (words, acc + id % 2 ^ nb * 2 ^ used, used + nb))
    ([], 0, 0)
  if st.2.2 = 0 then st.1 else st.1 ++ [st.2.1]

/-- Number of 64-bit words `pack nb` emits for `len` identifiers:
`ceil(nb * len / 64)`. -/
def padWords (nb len : Nat) : Nat := (nb * len + 63) / 64

/-- Number of zero identifiers appended to the cell array by a
`to_raw`/`from_raw` round trip: the word padding bits re-read as
identifiers, `ceil((64 * ceil(nb * len / 64) - nb * len) / nb)`. -/
def hydratedPad (nb len : Nat) : Nat :=
  (padWords nb len * 64 - nb * len + nb - 1) / nb

/-- Concrete counterexample region for the round-trip claim: a valid 1-cell
region (corners equal, default palette, one default cell). -/
def cEx1 : Region := ⟨"r", ⟨0, 0, 0⟩, ⟨0, 0, 0⟩, [], [], [BlockState.empty], [0]⟩

/-- Concrete witness region: a 1x1x2 region with a two-entry palette. -/
def wEx1 : Region :=
  ⟨"w", ⟨0, 0, 0⟩, ⟨0, 0, 1⟩, [], [],
    [BlockState.empty, ⟨"minecraft:stone", none⟩], [0, 1]⟩

/-- Concrete counterexample region for the packing claim: a 22x1x1 region with
a five-entry palette (bit width 3), whose 22nd identifier occupies bits
63..65 of the dense bitstream and therefore straddles a word boundary. -/
def cEx2 : Region :=
  ⟨"r", ⟨0, 0, 0⟩, ⟨21, 0, 0⟩, [], [],
    [BlockState.empty, ⟨"minecraft:stone", none⟩, ⟨"minecraft:dirt", none⟩,
      ⟨"minecraft:sand", none⟩, ⟨"minecraft:glass", none⟩],
    List.replicate 21 0 ++ [1]⟩

/-- Malformed serialized record: volume 1 and bit width 2 require
`ceil(2/64) = 1` packed word, but `block_states` is empty. -/
def rawEx9a : RawRegion :=
  ⟨⟨0, 0, 0⟩, ⟨1, 1, 1⟩, [BlockState.empty], [], [], [], [], []⟩

/-- Malformed serialized record: empty palette (with one packed word). -/
def rawEx9b : RawRegion := ⟨⟨0, 0, 0⟩, ⟨1, 1, 1⟩, [], [], [], [], [], [0]⟩

/-! ### Basic lemmas about the vector operations -/

@[simp] theorem Vec3.add_def (a b : Vec3) :
    a + b = ⟨a.x + b.x, a.y + b.y, a.z + b.z⟩ := rfl

@[simp] theorem Vec3.sub_def (a b : Vec3) :
    a - b = ⟨a.x - b.x, a.y - b.y, a.z - b.z⟩ := rfl

@[simp] theorem Vec3.hadd_def (a : Vec3) (b : UVec3) :
    a + b = ⟨a.x + (b.x : Int), a.y + (b.y : Int), a.z + (b.z : Int)⟩ := rfl

theorem int_sign_round (a : Int) : (a + a.sign) - (a + a.sign).sign = a := by
  rcases lt_trichotomy a 0 with h | rfl | h
  · rw [Int.sign_eq_neg_one_of_neg h]
    have h2 : a + -1 < 0 := by omega
    rw [Int.sign_eq_neg_one_of_neg h2]
    ring
  · simp
  · rw [Int.sign_eq_one_of_pos h]
    have h2 : (0 : Int) < a + 1 := by omega
    rw [Int.sign_eq_one_of_pos h2]
    ring

/-! ### Lemmas about the bit-level codec primitives -/

theorem two_mul_lor_one (x : Nat) : 2 * x ||| 1 = 2 * x + 1 := by
  have h := Nat.lor_bit false x true 0
  simpa [Nat.bit] using h

theorem natOfBits_nil : natOfBits [] = 0 := rfl

theorem natOfBits_cons (b : Nat) (l : List Nat) (hb : b < 2) :
    natOfBits (b :: l) = 2 * natOfBits l + b := by
  unfold natOfBits
  rw [List.reverse_cons, List.foldl_append]
  simp only [List.foldl_cons, List.foldl_nil]
  rw [Nat.shiftLeft_eq, pow_one]
  interval_cases b
  · simp [Nat.mul_comm]
  · rw [Nat.mul_comm, two_mul_lor_one]

theorem bitsOfNat_succ (nb n : Nat) :
    bitsOfNat (nb + 1) n = (n &&& 1) :: bitsOfNat nb (n >>> 1) := by
  unfold bitsOfNat
  rw [List.range_succ_eq_map]
  simp only [List.map_cons, List.map_map, Nat.shiftRight_zero]
  congr 1
  apply List.map_congr_left
  intro a _
  simp only [Function.comp_apply, Nat.succ_eq_add_one]
  rw [Nat.add_comm a 1, Nat.shiftRight_add]

@[simp] theorem bitsOfNat_length (nb n : Nat) : (bitsOfNat nb n).length = nb := by
  simp [bitsOfNat]

theorem bitsOfNat_lt_two (nb n : Nat) : ∀ x ∈ bitsOfNat nb n, x < 2 := by
  intro x hx
  simp only [bitsOfNat, List.mem_map, List.mem_range] at hx
  obtain ⟨b, _, rfl⟩ := hx
  rw [Nat.and_one_is_mod]
  omega

theorem natOfBits_bitsOfNat (nb n : Nat) :
    natOfBits (bitsOfNat nb n) = n % 2 ^ nb := by
  induction nb generalizing n with
  | zero => simp [bitsOfNat, natOfBits, Nat.mod_one]
  | succ nb ih =>
    rw [bitsOfNat_succ,
      natOfBits_cons _ _ (by rw [Nat.and_one_is_mod]; omega), ih]
    rw [Nat.and_one_is_mod, Nat.shiftRight_eq_div_pow, pow_one]
    rw [pow_succ, Nat.mul_comm (2 ^ nb) 2, Nat.mod_mul]
    omega

theorem bitsOfNat_zero_val (m : Nat) : bitsOfNat m 0 = List.replicate m 0 := by
  induction m with
  | zero => simp [bitsOfNat]
  | succ m ih => rw [bitsOfNat_succ]; simp [ih, List.replicate_succ]

theorem bitsOfNat_natOfBits (l : List Nat) (m : Nat)
    (h2 : ∀ b ∈ l, b < 2) (hlen : l.length ≤ m) :
    bitsOfNat m (natOfBits l) = l ++ List.replicate (m - l.length) 0 := by
  induction l generalizing m with
  | nil => simp [natOfBits_nil, bitsOfNat_zero_val]
  | cons b t ih =>
    obtain ⟨m', rfl⟩ : ∃ m', m = m' + 1 :=
      ⟨m - 1, by simp at hlen; omega⟩
    have hb : b < 2 := h2 b (by simp)
    rw [natOfBits_cons b t hb, bitsOfNat_succ]
    have e1 : (2 * natOfBits t + b) &&& 1 = b := by
      rw [Nat.and_one_is_mod]; omega
    have e2 : (2 * natOfBits t + b) >>> 1 = natOfBits t := by
      rw [Nat.shiftRight_eq_div_pow, pow_one]; omega
    rw [e1, e2, ih m' (fun x hx => h2 x (List.mem_cons_of_mem b hx))
      (by simp only [List.length_cons] at hlen; omega)]
    simp

theorem natOfBits_replicate_zero (m : Nat) :
    natOfBits (List.replicate m 0) = 0 := by
  induction m with
  | zero => rfl
  | succ m ih =>
    rw [List.replicate_succ, natOfBits_cons 0 _ (by omega), ih]

/-! ### Lemmas about chunking -/

theorem chunksOf_nil (k : Nat) : chunksOf k ([] : List α) = [] := rfl

theorem chunksOfF_irrel (k : Nat) (hk : 0 < k) :
    ∀ (n fuel fuel' : Nat) (l : List α), l.length = n → n ≤ fuel → n ≤ fuel' →
      chunksOfF k fuel l = chunksOfF k fuel' l := by
  intro n
  induction n using Nat.strong_induction_on with
  | _ n ih =>
    intro fuel fuel' l hn hf hf'
    cases l with
    | nil => cases fuel <;> cases fuel' <;> rfl
    | cons x xs =>
      have hlen : xs.length + 1 = n := by simpa using hn
      obtain ⟨f, rfl⟩ : ∃ f, fuel = f + 1 := ⟨fuel - 1, by omega⟩
      obtain ⟨f', rfl⟩ : ∃ f', fuel' = f' + 1 := ⟨fuel' - 1, by omega⟩
      show ((x :: xs).take k) :: chunksOfF k f ((x :: xs).drop k)
          = ((x :: xs).take k) :: chunksOfF k f' ((x :: xs).drop k)
      congr 1
      exact ih ((x :: xs).drop k).length
        (by simp only [List.length_drop, List.length_cons]; omega)
        f f' _ rfl
        (by simp only [List.length_drop, List.length_cons]; omega)
        (by simp only [List.length_drop, List.length_cons]; omega)

theorem chunksOf_cons (k : Nat) (hk : 0 < k) (l : List α) (hl : l ≠ []) :
    chunksOf k l = l.take k :: chunksOf k (l.drop k) := by
  cases l with
  | nil => exact absurd rfl hl
  | cons x xs =>
    show ((x :: xs).take k) :: chunksOfF k xs.length ((x :: xs).drop k)
        = ((x :: xs).take k) :: chunksOfF k ((x :: xs).drop k).length ((x :: xs).drop k)
    congr 1
    exact chunksOfF_irrel k hk ((x :: xs).drop k).length xs.length _ _ rfl
      (by simp only [List.length_drop, List.length_cons]; omega) le_rfl

theorem chunksOf_length (k : Nat) (hk : 0 < k) (l : List α) :
    (chunksOf k l).length = (l.length + k - 1) / k := by
  suffices H : ∀ (n : Nat) (l : List α), l.length ≤ n →
      (chunksOf k l).length = (l.length + k - 1) / k from H l.length l le_rfl
  intro n
  induction n with
  | zero =>
    intro l hl
    have : l = [] := List.length_eq_zero.mp (by omega)
    subst this
    simp only [chunksOf_nil, List.length_nil]
    exact (Nat.div_eq_of_lt (by omega)).symm
  | succ n ih =>
    intro l hl
    rcases eq_or_ne l [] with rfl | hne
    · simp only [chunksOf_nil, List.length_nil]
      exact (Nat.div_eq_of_lt (by omega)).symm
    · have hpos : 0 < l.length := List.length_pos.mpr hne
      rw [chunksOf_cons k hk l hne]
      rw [List.length_cons, ih (l.drop k)
        (by simp only [List.length_drop]; omega)]
      simp only [List.length_drop]
      rcases Nat.lt_or_ge k l.length with hge | hle
      · have e : l.length - k + k - 1 = l.length - 1 := by omega
        rw [e]
        have e2 : l.length + k - 1 = (l.length - 1) + k := by omega
        rw [e2, Nat.add_div_right _ hk]
      · have e0 : l.length - k = 0 := by omega
        rw [e0]
        have e1 : (0 + k - 1) / k = 0 := Nat.div_eq_of_lt (by omega)
        rw [e1]
        exact (Nat.div_eq_of_lt_le (by omega) (by omega)).symm

theorem chunks_expand_flatten (k : Nat) (hk : 0 < k) (l : List Nat)
    (h2 : ∀ b ∈ l, b < 2) :
    ((chunksOf k l).map (fun c => bitsOfNat k (natOfBits c))).flatten
      = l ++ List.replicate ((chunksOf k l).length * k - l.length) 0 := by
  suffices H : ∀ (n : Nat) (l : List Nat), l.length ≤ n → (∀ b ∈ l, b < 2) →
      ((chunksOf k l).map (fun c => bitsOfNat k (natOfBits c))).flatten
        = l ++ List.replicate ((chunksOf k l).length * k - l.length) 0 from
    H l.length l le_rfl h2
  intro n
  induction n with
  | zero =>
    intro l hl _
    have : l = [] := List.length_eq_zero.mp (by omega)
    subst this
    simp [chunksOf_nil]
  | succ n ih =>
    intro l hl h2
    rcases eq_or_ne l [] with rfl | hne
    · simp [chunksOf_nil]
    · have hpos : 0 < l.length := List.length_pos.mpr hne
      rw [chunksOf_cons k hk l hne]
      simp only [List.map_cons, List.flatten_cons, List.length_cons]
      have htake : bitsOfNat k (natOfBits (l.take k)) =
          l.take k ++ List.replicate (k - (l.take k).length) 0 :=
        bitsOfNat_natOfBits _ _ (fun b hb => h2 b (List.take_subset k l hb))
          (by simp only [List.length_take]; omega)
      rw [htake, ih (l.drop k)
        (by simp only [List.length_drop]; omega)
        (fun b hb => h2 b (List.drop_subset k l hb))]
      rcases Nat.le_total k l.length with hge | hle
      · have elen : (l.take k).length = k := by
          simp only [List.length_take]; omega
        rw [elen]
        simp only [Nat.sub_self, List.replicate_zero, List.append_nil]
        rw [← List.append_assoc, List.take_append_drop]
        congr 2
        simp only [List.length_drop]
        rw [Nat.succ_mul]
        omega
      · have hdrop : l.drop k = [] := List.drop_eq_nil_of_le hle
        rw [hdrop, chunksOf_nil]
        simp only [List.map_nil, List.flatten_nil, List.append_nil,
          List.length_nil, List.length_take]
        have etake : l.take k = l := List.take_of_length_le hle
        rw [etake]
        have e1 : k ⊓ l.length = l.length := inf_eq_right.mpr hle
        simp [e1]

theorem unpack_flatten_append (nb : Nat) (hnb : 0 < nb)
    (blocks tail : List Nat) :
    (chunksOf nb ((blocks.map (bitsOfNat nb)).flatten ++ tail)).map natOfBits
      = blocks.map (fun b => b % 2 ^ nb)
        ++ (chunksOf nb tail).map natOfBits := by
  induction blocks with
  | nil => simp
  | cons b bs ih =>
    simp only [List.map_cons, List.flatten_cons, List.append_assoc]
    rw [chunksOf_cons nb hnb _
      (List.length_pos.mp (by simp only [List.length_append, bitsOfNat_length]; omega))]
    rw [List.take_left' (bitsOfNat_length nb b),
      List.drop_left' (bitsOfNat_length nb b)]
    simp only [List.map_cons]
    rw [natOfBits_bitsOfNat, ih, List.cons_append]

theorem mem_chunksOf_replicate (k : Nat) (hk : 0 < k) (m : Nat) :
    ∀ c ∈ chunksOf k (List.replicate m (0 : Nat)), ∃ j, c = List.replicate j 0 := by
  suffices H : ∀ (n m : Nat), m ≤ n →
      ∀ c ∈ chunksOf k (List.replicate m (0 : Nat)), ∃ j, c = List.replicate j 0 from
    H m m le_rfl
  intro n
  induction n with
  | zero =>
    intro m hm c hc
    have : m = 0 := by omega
    subst this
    simp [chunksOf_nil] at hc
  | succ n ih =>
    intro m hm c hc
    rcases Nat.eq_zero_or_pos m with rfl | hpos
    · simp [chunksOf_nil] at hc
    · rw [chunksOf_cons k hk _
        (by intro h; have := congrArg List.length h; simp at this; omega)] at hc
      rw [List.mem_cons] at hc
      rcases hc with hc | hc
      · exact ⟨min k m, by rw [hc, List.take_replicate]⟩
      · rw [List.drop_replicate] at hc
        exact ih (m - k) (by omega) c hc

theorem chunks_replicate_zero (k : Nat) (hk : 0 < k) (m : Nat) :
    (chunksOf k (List.replicate m (0 : Nat))).map natOfBits
      = List.replicate ((chunksOf k (List.replicate m (0 : Nat))).length) 0 := by
  rw [List.eq_replicate_iff]
  refine ⟨by simp, ?_⟩
  intro b hb
  rw [List.mem_map] at hb
  obtain ⟨c, hc, rfl⟩ := hb
  obtain ⟨j, rfl⟩ := mem_chunksOf_replicate k hk m c hc
  exact natOfBits_replicate_zero j

theorem length_flatten_bits (k : Nat) (ws : List Nat) :
    ((ws.map (bitsOfNat k)).flatten).length = k * ws.length := by
  induction ws with
  | nil => simp
  | cons w ws ih =>
    simp only [List.map_cons, List.flatten_cons, List.length_append,
      bitsOfNat_length, ih, List.length_cons]
    rw [Nat.mul_succ]
    omega

/-! ### The bit-width computation -/

theorem numBitsAux_spec :
    ∀ (fuel n w : Nat), n ≤ 2 ^ (w + fuel) → 2 ≤ w →
      (∀ u, 2 ≤ u → u < w → 2 ^ u < n) →
      2 ≤ numBitsAux fuel n w ∧ n ≤ 2 ^ numBitsAux fuel n w ∧
        ∀ u, 2 ≤ u → n ≤ 2 ^ u → numBitsAux fuel n w ≤ u := by
  intro fuel
  induction fuel with
  | zero =>
    intro n w hle hw hinv
    simp only [numBitsAux]
    refine ⟨hw, by simpa using hle, ?_⟩
    intro u hu hnu
    by_contra hcon
    have := hinv u hu (by omega)
    omega
  | succ fuel ih =>
    intro n w hle hw hinv
    simp only [numBitsAux]
    rw [Nat.shiftLeft_eq, Nat.one_mul]
    split
    next h =>
      refine ih n (w + 1) ?_ (by omega) ?_
      · have : w + 1 + fuel = w + (fuel + 1) := by omega
        rw [this]
        exact hle
      · intro u hu hlt
        rcases Nat.lt_or_ge u w with h2 | h2
        · exact hinv u hu h2
        · have : u = w := by omega
          subst this
          exact h
    next h =>
      refine ⟨hw, by omega, ?_⟩
      intro u hu hnu
      by_contra hcon
      have := hinv u hu (by omega)
      omega

theorem numBitsFrom_spec (n : Nat) :
    2 ≤ numBitsFrom n ∧ n ≤ 2 ^ numBitsFrom n ∧
      ∀ u, 2 ≤ u → n ≤ 2 ^ u → numBitsFrom n ≤ u := by
  refine numBitsAux_spec n n 2 ?_ le_rfl (by omega)
  calc n ≤ 2 ^ n := Nat.le_of_lt (Nat.lt_two_pow n)
    _ ≤ 2 ^ (2 + n) := Nat.pow_le_pow_right (by omega) (by omega)

theorem numBitsFrom_pos (n : Nat) : 0 < numBitsFrom n := by
  have := (numBitsFrom_spec n).1
  omega

/-! ### The codec round trip -/

theorem unpack_pack (nb : Nat) (hnb : 0 < nb) (blocks : List Nat) :
    unpack nb (pack nb blocks)
      = blocks.map (fun b => b % 2 ^ nb)
        ++ List.replicate (hydratedPad nb blocks.length) 0 := by
  unfold unpack pack
  set bits := (blocks.map (bitsOfNat nb)).flatten with hbits
  have h2 : ∀ b ∈ bits, b < 2 := by
    intro b hb
    rw [hbits, List.mem_flatten] at hb
    obtain ⟨c, hc, hbc⟩ := hb
    rw [List.mem_map] at hc
    obtain ⟨w, _, rfl⟩ := hc
    exact bitsOfNat_lt_two nb w b hbc
  rw [List.map_map]
  have hcomp : (bitsOfNat 64 ∘ natOfBits) = fun c => bitsOfNat 64 (natOfBits c) := rfl
  rw [hcomp, chunks_expand_flatten 64 (by omega) bits h2]
  rw [unpack_flatten_append nb hnb blocks _, chunks_replicate_zero nb hnb _]
  congr 1
  congr 1
  rw [chunksOf_length nb hnb, List.length_replicate,
    chunksOf_length 64 (by omega) bits]
  have hlen : bits.length = nb * blocks.length := length_flatten_bits nb blocks
  rw [hlen]
  unfold hydratedPad padWords
  have e1 : nb * blocks.length + 64 - 1 = nb * blocks.length + 63 := by omega
  rw [e1]

theorem vec3_corner_roundtrip (c1 c2 : Vec3) :
    c1 + ((c2 - c1) + (c2 - c1).signum) - ((c2 - c1) + (c2 - c1).signum).signum = c2 := by
  rcases c1 with ⟨x1, y1, z1⟩
  rcases c2 with ⟨x2, y2, z2⟩
  simp only [Vec3.add_def, Vec3.sub_def, Vec3.signum, Vec3.mk.injEq]
  refine ⟨?_, ?_, ?_⟩
  · have := int_sign_round (x2 - x1); omega
  · have := int_sign_round (y2 - y1); omega
  · have := int_sign_round (z2 - z1); omega

/-- C1: the round-trip claim `from_raw(to_raw(r)) == r` is FALSE on the code:
for the valid one-cell region `cEx1` (equal corners, default palette, one
cell), hydration yields a region whose cell array has 32 entries, not 1, so
the hydrated region is not equal to `cEx1`. -/
theorem roundtrip_not_identity :
    Region.from_raw (Region.to_raw cEx1) cEx1.name ≠ cEx1 := by decide

/-- C1 (amended): hydrating the serialized form of `r` preserves name,
corners, palette, tile entities and entities, and reproduces the cell array
up to trailing zero padding: the hydrated cell array is `r.blocks` followed
by `hydratedPad` zero identifiers (so equality holds on every index below
`len(cells)`, and on the whole array exactly when `bitWidth * len(cells)` is
a multiple of 64). -/
theorem roundtrip_pads_blocks (r : Region)
    (h : ∀ b ∈ r.blocks, b < 2 ^ r.num_bits) :
    Region.from_raw (Region.to_raw r) r.name
      = { r with blocks :=
            r.blocks ++ List.replicate (hydratedPad r.num_bits r.blocks.length) 0 } := by
  have hnb : 0 < r.num_bits := numBitsFrom_pos _
  have hblocks : unpack r.num_bits (pack r.num_bits r.blocks)
      = r.blocks ++ List.replicate (hydratedPad r.num_bits r.blocks.length) 0 := by
    rw [unpack_pack _ hnb]
    have e : r.blocks.map (fun b => b % 2 ^ r.num_bits) = r.blocks.map id :=
      List.map_congr_left (fun b hb => Nat.mod_eq_of_lt (h b hb))
    rw [e, List.map_id]
  simp only [Region.from_raw, Region.to_raw, Region.new, Region.num_bits]
  rw [Region.mk.injEq]
  refine ⟨rfl, rfl, vec3_corner_roundtrip _ _, rfl, rfl, rfl, hblocks⟩

/-- C1 (witness): the amended round trip evaluated on the concrete 1x1x2
region `wEx1` (bit width 2, 2 cells, hence 30 padding identifiers). -/
theorem roundtrip_pads_blocks_witness :
    Region.from_raw (Region.to_raw wEx1) wEx1.name
      = { wEx1 with blocks :=
            wEx1.blocks ++ List.replicate (hydratedPad wEx1.num_bits wEx1.blocks.length) 0 } :=
  roundtrip_pads_blocks wEx1 (by decide)

/-- C9: FALSE on the code — `from_raw` performs no validation and never
signals a decode failure.  On `rawEx9a` (volume 1, bit width 2, zero packed
words instead of the required one) hydration succeeds with an empty cell
array (silent truncation); on `rawEx9b` (empty palette) hydration succeeds
with an empty palette and a 32-entry cell array for a volume-1 box (silent
padding). -/
theorem from_raw_accepts_malformed :
    (Region.from_raw rawEx9a "r").blocks = [] ∧
    (Region.from_raw rawEx9a "r").volume = 1 ∧
    (Region.from_raw rawEx9b "r").palette = [] ∧
    (Region.from_raw rawEx9b "r").blocks.length = 32 := by decide

/-- C9 (amended): hydration always succeeds; the resulting cell-array length
is determined solely by the incoming word count and the bit width derived
from the incoming palette size — `ceil(64 * words / bitWidth)` — with no
check against the box volume. -/
theorem from_raw_blocks_length (raw : RawRegion) (name : String) :
    (Region.from_raw raw name).blocks.length
      = (64 * raw.block_states.length
          + numBitsFrom raw.block_state_palette.length - 1)
        / numBitsFrom raw.block_state_palette.length := by
  have hnb : 0 < numBitsFrom raw.block_state_palette.length := numBitsFrom_pos _
  simp only [Region.from_raw, Region.new, Region.num_bits, unpack]
  rw [List.length_map, chunksOf_length _ hnb, length_flatten_bits]

/-- C7: for any region, `num_bits` is the least bit width `w ≥ 2` with
`2 ^ w ≥ palette size`, and `to_raw` packs the cell identifiers at exactly
this width (recomputing it from the current palette on each serialization). -/
theorem num_bits_minimal (r : Region) (hpal : 1 ≤ r.palette.length) :
    (2 ≤ r.num_bits ∧ r.palette.length ≤ 2 ^ r.num_bits ∧
      ∀ w, 2 ≤ w → r.palette.length ≤ 2 ^ w → r.num_bits ≤ w) ∧
    (Region.to_raw r).block_states = pack r.num_bits r.blocks :=
  ⟨numBitsFrom_spec r.palette.length, rfl⟩

/-- C7 (witness): on a region with a five-entry palette the bit width is at
least 2, covers the palette (`5 ≤ 2 ^ num_bits`), and width 2 is rejected
(`num_bits` is not ≤ 2 since `2 ^ 2 < 5`); concretely `num_bits = 3`. -/
theorem num_bits_minimal_witness :
    2 ≤ cEx2.num_bits ∧ cEx2.palette.length ≤ 2 ^ cEx2.num_bits ∧
      (Region.to_raw cEx2).block_states = pack cEx2.num_bits cEx2.blocks :=
  ⟨(num_bits_minimal cEx2 (by decide)).1.1,
    (num_bits_minimal cEx2 (by decide)).1.2.1,
    (num_bits_minimal cEx2 (by decide)).2⟩

/-- C3: FALSE on the code (code bug) — `Region::new` allocates
`(corner1 - corner2).volume()` cells, the product of the per-axis absolute
differences WITHOUT the `+1` that every other method (`size`, `volume`,
`pos_to_index`, `index_to_pos`) uses; so the cell array is always strictly
shorter than the box volume.  Concretely, corners `(0,0,0)` and `(1,1,1)`
give 1 cell for a volume-8 box. -/
theorem new_blocks_length_bug :
    (∀ (name : String) (c1 c2 : Vec3),
        (Region.new name c1 c2).blocks.length < (Region.new name c1 c2).volume) ∧
    (Region.new "r" ⟨0, 0, 0⟩ ⟨1, 1, 1⟩).blocks.length = 1 ∧
    (Region.new "r" ⟨0, 0, 0⟩ ⟨1, 1, 1⟩).volume = 8 := by
  have key : ∀ a b c : Nat, a * b * c < (a + 1) * (b + 1) * (c + 1) := by
    intro a b c
    have e : (a + 1) * (b + 1) * (c + 1)
        = a * b * c + (a * b + a * c + b * c + a + b + c + 1) := by ring
    rw [e]
    exact Nat.lt_add_of_pos_right (Nat.succ_pos _)
  refine ⟨?_, by decide, by decide⟩
  intro name c1 c2
  simp only [Region.new, Region.volume, Vec3.volume, Vec3.volume_to,
    Vec3.size_to, UVec3.volume, Vec3.sub_def, List.length_replicate]
  exact key _ _ _

/-- C5: FALSE on the code (code bug) — because `Region::new` allocates too few
cells (C3), `Blocks::next` hits a failing `blocks.get` and ends the iteration
early: on the fresh region with corners `(0,0,0)`/`(1,1,1)` the iterator
yields 1 pair instead of `volume = 8`. -/
theorem blocks_iterator_undercount_bug :
    (Region.new "r" ⟨0, 0, 0⟩ ⟨1, 1, 1⟩).blocksList.length = 1 ∧
    (Region.new "r" ⟨0, 0, 0⟩ ⟨1, 1, 1⟩).volume = 8 := by
  exact ⟨by decide, by decide⟩

/-- C6: FALSE on the code (code bug) — on the fresh region with corners
`(0,0,0)`/`(1,1,1)` the in-box position `(1,1,1)` maps to index 7, beyond the
1-entry cell array (C3), so `get_block` panics (modelled as `none`) instead of
returning the default value; the non-default cell count is 0 as claimed. -/
theorem fresh_region_get_block_bug :
    (Region.new "r" ⟨0, 0, 0⟩ ⟨1, 1, 1⟩).inBox ⟨1, 1, 1⟩ ∧
    (Region.new "r" ⟨0, 0, 0⟩ ⟨1, 1, 1⟩).get_block ⟨1, 1, 1⟩ = none ∧
    (Region.new "r" ⟨0, 0, 0⟩ ⟨1, 1, 1⟩).total_blocks = 0 := by
  exact ⟨by decide, by decide, by decide⟩

theorem lin_index_decomp (sx sz oy oz ox : Nat) (hx : ox < sx) (hz : oz < sz) :
    (oy * sx * sz + oz * sx + ox) % sx = ox ∧
    ((oy * sx * sz + oz * sx + ox) / sx) % sz = oz ∧
    (oy * sx * sz + oz * sx + ox) / (sz * sx) = oy := by
  have hsx : 0 < sx := by omega
  have hsz : 0 < sz := by omega
  have e : oy * sx * sz + oz * sx + ox = ox + sx * (oz + sz * oy) := by ring
  refine ⟨?_, ?_, ?_⟩
  · rw [e, Nat.add_mul_mod_self_left, Nat.mod_eq_of_lt hx]
  · rw [e, Nat.add_mul_div_left _ _ hsx, Nat.div_eq_of_lt hx, Nat.zero_add,
      Nat.add_mul_mod_self_left, Nat.mod_eq_of_lt hz]
  · rw [Nat.mul_comm sz sx, ← Nat.div_div_eq_div_mul, e,
      Nat.add_mul_div_left _ _ hsx, Nat.div_eq_of_lt hx, Nat.zero_add,
      Nat.add_mul_div_left _ _ hsz, Nat.div_eq_of_lt hz, Nat.zero_add]

theorem lin_index_recomp (sx sz i : Nat) (hsx : 0 < sx) (hsz : 0 < sz) :
    (i / (sz * sx)) * sx * sz + ((i / sx) % sz) * sx + i % sx = i := by
  have e3 : i / (sz * sx) = i / sx / sz := by
    rw [Nat.mul_comm sz sx, Nat.div_div_eq_div_mul]
  have e1 := Nat.div_add_mod i sx
  have e2 := Nat.div_add_mod (i / sx) sz
  rw [e3]
  conv_rhs => rw [← e1, ← e2]
  ring

/-- C4: for every region (arbitrary corner order and signs),
`pos_to_index` and `index_to_pos` are mutually inverse — `index_to_pos`
after `pos_to_index` is the identity on in-box positions, and
`pos_to_index` after `index_to_pos` is the identity on `[0, volume)`. -/
theorem index_pos_bijection (r : Region) :
    (∀ p : Vec3, r.inBox p → r.index_to_pos (r.pos_to_index p) = p) ∧
    (∀ i : Nat, i < r.volume → r.pos_to_index (r.index_to_pos i) = i) := by
  rcases r with ⟨nm, ⟨c1x, c1y, c1z⟩, ⟨c2x, c2y, c2z⟩, te, en, pal, bl⟩
  constructor
  · rintro ⟨px, py, pz⟩ ⟨h1, h2, h3, h4, h5, h6⟩
    simp only [Region.min_x, Region.max_x, Region.min_y, Region.max_y,
      Region.min_z, Region.max_z] at h1 h2 h3 h4 h5 h6
    simp only [Region.index_to_pos, Region.pos_to_index, Region.size,
      Region.blocks_origin, Region.min_x, Region.min_y, Region.min_z,
      Vec3.size_to, Vec3.abs, Vec3.sub_def, Vec3.hadd_def, Vec3.mk.injEq]
    set ox := (px - min c1x c2x).natAbs
    set oy := (py - min c1y c2y).natAbs
    set oz := (pz - min c1z c2z).natAbs
    set sx := (c1x - c2x).natAbs + 1
    set sy := (c1y - c2y).natAbs + 1
    set sz := (c1z - c2z).natAbs + 1
    have hxlt : ox < sx := by omega
    have hzlt : oz < sz := by omega
    obtain ⟨ex, ez, ey⟩ := lin_index_decomp sx sz oy oz ox hxlt hzlt
    rw [ex, ez, ey]
    refine ⟨by omega, by omega, by omega⟩
  · intro i hi
    simp only [Region.index_to_pos, Region.pos_to_index, Region.size,
      Region.blocks_origin, Region.min_x, Region.min_y, Region.min_z,
      Vec3.size_to, Vec3.abs, Vec3.sub_def, Vec3.hadd_def]
    set sx := (c1x - c2x).natAbs + 1
    set sy := (c1y - c2y).natAbs + 1
    set sz := (c1z - c2z).natAbs + 1
    have ea : ∀ (m : Int) (a : Nat), (m + (a : Int) - m).natAbs = a := by
      intro m a; omega
    rw [ea, ea, ea]
    exact lin_index_recomp sx sz i (by omega) (by omega)

/-- C4 (witness): both directions of the bijection evaluated on the region
with reversed corners `(1,1,1)`/`(-1,-1,-1)` — position `(0,0,0)` is in the
box and round-trips through index 13, and index 13 round-trips through
position `(0,0,0)` (the scenario of the spec). -/
theorem index_pos_bijection_witness :
    (Region.new "w" ⟨1, 1, 1⟩ ⟨-1, -1, -1⟩).index_to_pos
        ((Region.new "w" ⟨1, 1, 1⟩ ⟨-1, -1, -1⟩).pos_to_index ⟨0, 0, 0⟩) = ⟨0, 0, 0⟩ ∧
    (Region.new "w" ⟨1, 1, 1⟩ ⟨-1, -1, -1⟩).pos_to_index
        ((Region.new "w" ⟨1, 1, 1⟩ ⟨-1, -1, -1⟩).index_to_pos 13) = 13 :=
  ⟨(index_pos_bijection (Region.new "w" ⟨1, 1, 1⟩ ⟨-1, -1, -1⟩)).1 ⟨0, 0, 0⟩ (by decide),
    (index_pos_bijection (Region.new "w" ⟨1, 1, 1⟩ ⟨-1, -1, -1⟩)).2 13 (by decide)⟩

theorem position_eq_none (p : α → Bool) (l : List α)
    (h : position p l = none) : ∀ a ∈ l, p a = false := by
  induction l with
  | nil => intro a ha; simp at ha
  | cons x xs ih =>
    by_cases hx : p x
    · simp [position, hx] at h
    · intro a ha
      rw [List.mem_cons] at ha
      rcases ha with rfl | ha
      · simpa using hx
      · simp only [position, hx, Bool.false_eq_true, if_false,
          Option.map_eq_none'] at h
        exact ih h a ha

theorem position_isSome_of_mem (p : α → Bool) (l : List α) (a : α)
    (ha : a ∈ l) (hp : p a = true) : ∃ i, position p l = some i := by
  induction l with
  | nil => simp at ha
  | cons x xs ih =>
    by_cases hx : p x
    · exact ⟨0, by simp [position, hx]⟩
    · rw [List.mem_cons] at ha
      rcases ha with rfl | ha
      · exact absurd hp hx
      · obtain ⟨i, hi⟩ := ih ha
        exact ⟨i + 1, by simp [position, hx, hi]⟩

theorem position_some_getD (p : α → Bool) (l : List α) (i : Nat) (d : α)
    (h : position p l = some i) : p (l.getD i d) = true ∧ i < l.length := by
  induction l generalizing i with
  | nil => simp [position] at h
  | cons x xs ih =>
    by_cases hx : p x
    · simp only [position, hx, if_true] at h
      obtain rfl := Option.some.inj h
      exact ⟨by simpa using hx, by simp⟩
    · simp only [position, hx, Bool.false_eq_true, if_false] at h
      rw [Option.map_eq_some'] at h
      obtain ⟨j, hj, rfl⟩ := h
      have hrec := ih j hj
      constructor
      · simpa using hrec.1
      · simp only [List.length_cons]; omega

/-- C8: `set_block` deduplicates through the palette — if a structurally
equal value exists at index `i`, the palette is unchanged and the cell is set
to `i` (whose palette entry is `v`); otherwise `v` is appended once and the
cell is set to the previous palette length; a second `set_block` with an
equal value adds no further entry, and `set_block` preserves palette
distinctness. -/
theorem set_block_palette_dedup (r : Region) (p q : Vec3) (v : BlockState) :
    (∀ i, position (fun b => decide (b = v)) r.palette = some i →
        (r.set_block p v).palette = r.palette ∧
        (r.set_block p v).blocks = r.blocks.set (r.pos_to_index p) i ∧
        r.palette.getD i BlockState.empty = v) ∧
    (position (fun b => decide (b = v)) r.palette = none →
        (r.set_block p v).palette = r.palette ++ [v] ∧
        (r.set_block p v).blocks = r.blocks.set (r.pos_to_index p) r.palette.length) ∧
    ((r.set_block p v).set_block q v).palette = (r.set_block p v).palette ∧
    (r.palette.Nodup → ((r.set_block p v).palette).Nodup) := by
  refine ⟨?_, ?_, ?_, ?_⟩
  · intro i hi
    refine ⟨by simp [Region.set_block, hi], by simp [Region.set_block, hi], ?_⟩
    have := (position_some_getD _ _ i BlockState.empty hi).1
    simpa using this
  · intro hn
    exact ⟨by simp [Region.set_block, hn], by simp [Region.set_block, hn]⟩
  · cases h : position (fun b => decide (b = v)) r.palette with
    | some i =>
      have h1 : r.set_block p v
          = { r with blocks := r.blocks.set (r.pos_to_index p) i } := by
        simp [Region.set_block, h]
      rw [h1]
      simp [Region.set_block, h]
    | none =>
      have h1 : r.set_block p v =
          { r with palette := r.palette ++ [v],
                   blocks := r.blocks.set (r.pos_to_index p) r.palette.length } := by
        simp [Region.set_block, h]
      rw [h1]
      obtain ⟨j, hj⟩ := position_isSome_of_mem (fun b => decide (b = v))
        (r.palette ++ [v]) v (by simp) (by simp)
      simp [Region.set_block, hj]
  · intro hnd
    cases h : position (fun b => decide (b = v)) r.palette with
    | some i => simpa [Region.set_block, h] using hnd
    | none =>
      have hpal : (r.set_block p v).palette = r.palette ++ [v] := by
        simp [Region.set_block, h]
      rw [hpal, List.nodup_append]
      refine ⟨hnd, by simp, ?_⟩
      intro a ha hav
      simp only [List.mem_singleton] at hav
      subst hav
      have := position_eq_none _ _ h a ha
      simp at this

/-- C8 (witness): setting a fresh value on a fresh region (distinct palette)
keeps the palette duplicate-free — the theorem applied at concrete inputs. -/
theorem set_block_palette_dedup_witness :
    (((Region.new "w" ⟨0, 0, 0⟩ ⟨1, 1, 1⟩).set_block ⟨0, 0, 0⟩
        ⟨"minecraft:stone", none⟩).palette).Nodup :=
  (set_block_palette_dedup (Region.new "w" ⟨0, 0, 0⟩ ⟨1, 1, 1⟩)
    ⟨0, 0, 0⟩ ⟨0, 0, 0⟩ ⟨"minecraft:stone", none⟩).2.2.2 (by decide)

/-- C10: `set_block` at an in-box position changes at most the cell at
`pos_to_index p` and possibly appends one palette entry — name, corners,
tile entities, entities, every other cell, and every existing palette entry
and its id are unchanged, and the palette grows by at most one. -/
theorem set_block_frame (r : Region) (p : Vec3) (v : BlockState)
    (hp : r.inBox p) :
    (r.set_block p v).name = r.name ∧
    (r.set_block p v).corner1 = r.corner1 ∧
    (r.set_block p v).corner2 = r.corner2 ∧
    (r.set_block p v).tile_entities = r.tile_entities ∧
    (r.set_block p v).entities = r.entities ∧
    (∀ j, j ≠ r.pos_to_index p → (r.set_block p v).blocks[j]? = r.blocks[j]?) ∧
    (∀ i, i < r.palette.length → (r.set_block p v).palette[i]? = r.palette[i]?) ∧
    (r.set_block p v).palette.length ≤ r.palette.length + 1 := by
  cases h : position (fun b => decide (b = v)) r.palette with
  | some i =>
    have h1 : r.set_block p v
        = { r with blocks := r.blocks.set (r.pos_to_index p) i } := by
      simp [Region.set_block, h]
    rw [h1]
    refine ⟨rfl, rfl, rfl, rfl, rfl, ?_, fun i _ => rfl, by simp⟩
    intro j hj
    exact List.getElem?_set_ne (fun e => hj e.symm)
  | none =>
    have h1 : r.set_block p v =
        { r with palette := r.palette ++ [v],
                 blocks := r.blocks.set (r.pos_to_index p) r.palette.length } := by
      simp [Region.set_block, h]
    rw [h1]
    refine ⟨rfl, rfl, rfl, rfl, rfl, ?_, ?_, by simp⟩
    · intro j hj
      exact List.getElem?_set_ne (fun e => hj e.symm)
    · intro i hi
      rw [List.getElem?_append]
      simp [hi]

/-- C10 (witness): the frame property applied at a concrete in-box position
of a concrete region: the name is unchanged. -/
theorem set_block_frame_witness :
    ((Region.new "w" ⟨0, 0, 0⟩ ⟨1, 1, 1⟩).set_block ⟨0, 0, 0⟩
        ⟨"minecraft:stone", none⟩).name
      = (Region.new "w" ⟨0, 0, 0⟩ ⟨1, 1, 1⟩).name :=
  (set_block_frame (Region.new "w" ⟨0, 0, 0⟩ ⟨1, 1, 1⟩) ⟨0, 0, 0⟩
    ⟨"minecraft:stone", none⟩ (by decide)).1

theorem chunksOf_getD (k : Nat) (hk : 0 < k) :
    ∀ (j : Nat) (l : List α), (chunksOf k l).getD j [] = (l.drop (k * j)).take k := by
  intro j
  induction j with
  | zero =>
    intro l
    rcases eq_or_ne l [] with rfl | hne
    · simp [chunksOf_nil]
    · rw [chunksOf_cons k hk l hne]
      simp
  | succ j ih =>
    intro l
    rcases eq_or_ne l [] with rfl | hne
    · simp [chunksOf_nil]
    · rw [chunksOf_cons k hk l hne]
      simp only [List.getD_cons_succ]
      rw [ih (l.drop k), List.drop_drop]
      congr 2
      ring

theorem natOfBits_testBit (l : List Nat) (h2 : ∀ b ∈ l, b < 2) :
    ∀ t, Nat.testBit (natOfBits l) t = true ↔ l.getD t 0 = 1 := by
  induction l with
  | nil => intro t; simp [natOfBits_nil, Nat.zero_testBit]
  | cons b rest ih =>
    have hb : b < 2 := h2 b (by simp)
    intro t
    rw [natOfBits_cons b rest hb]
    cases t with
    | zero =>
      rw [Nat.testBit_zero]
      simp only [List.getD_cons_zero]
      constructor
      · intro h; have := of_decide_eq_true h; omega
      · intro h; exact decide_eq_true (by omega)
    | succ t =>
      rw [Nat.testBit_succ]
      have e : (2 * natOfBits rest + b) / 2 = natOfBits rest := by omega
      rw [e, List.getD_cons_succ]
      exact ih (fun x hx => h2 x (by simp [hx])) t

theorem testBit_iff_and_one (y t : Nat) :
    Nat.testBit y t = true ↔ y >>> t &&& 1 = 1 := by
  rw [Nat.testBit_to_div_mod, Nat.and_one_is_mod, Nat.shiftRight_eq_div_pow]
  constructor
  · intro h; exact of_decide_eq_true h
  · intro h; exact decide_eq_true h

theorem flatten_bits_getD (nb : Nat) (hnb : 0 < nb) :
    ∀ (blocks : List Nat) (i : Nat), i < nb * blocks.length →
      ((blocks.map (bitsOfNat nb)).flatten).getD i 0
        = blocks.getD (i / nb) 0 >>> (i % nb) &&& 1 := by
  intro blocks
  induction blocks with
  | nil => intro i hi; simp at hi
  | cons b bs ih =>
    intro i hi
    simp only [List.map_cons, List.flatten_cons]
    rcases Nat.lt_or_ge i nb with hlt | hge
    · rw [List.getD_eq_getElem?_getD, List.getElem?_append, bitsOfNat_length,
        if_pos hlt, bitsOfNat, List.getElem?_map, List.getElem?_range hlt]
      simp only [Option.map_some', Option.getD_some]
      rw [Nat.div_eq_of_lt hlt, Nat.mod_eq_of_lt hlt, List.getD_cons_zero]
    · obtain ⟨i', rfl⟩ : ∃ i', i = i' + nb := ⟨i - nb, by omega⟩
      rw [List.getD_eq_getElem?_getD,
        List.getElem?_append_right (by simp only [bitsOfNat_length]; omega),
        bitsOfNat_length]
      have e : i' + nb - nb = i' := by omega
      rw [e, ← List.getD_eq_getElem?_getD]
      have hi' : i' < nb * bs.length := by
        have e2 : nb * (b :: bs).length = nb * bs.length + nb := by
          simp [Nat.mul_succ]
        omega
      rw [ih i' hi', Nat.add_div_right _ hnb, Nat.add_mod_right,
        List.getD_cons_succ]

/-- C2: the word-aligned no-split packing claim is FALSE on the code.  On the
concrete region `cEx2` (22 identifiers at bit width 3, so 21 identifiers fill
63 bits of the first word) the code's packing differs from the claimed
word-aligned packing `packAligned`, and bit 63 of the first emitted word — an
unused padding bit under the claimed convention — is set to 1: the 22nd
identifier's bits straddle the word boundary. -/
theorem to_raw_packing_ne_aligned :
    (Region.to_raw cEx2).block_states ≠ packAligned cEx2.num_bits cEx2.blocks ∧
    Nat.testBit ((Region.to_raw cEx2).block_states.getD 0 0) 63 = true := by
  decide

/-- C2 (amended): `to_raw` packs the identifiers as a DENSE bitstream — the
low `num_bits` bits of all identifiers are concatenated in order (LSB first)
and cut into 64-bit words, so bit `b` of word `j` is bit `(64j+b) % num_bits`
of identifier `(64j+b) / num_bits` when `64j+b` is below the total bit count
and zero afterwards; an identifier whose bits reach a word boundary is split
across the two words, and only the final word's trailing bits are padding. -/
theorem to_raw_packing_dense_bits (r : Region) (j b : Nat)
    (hj : j < (Region.to_raw r).block_states.length) (hb : b < 64) :
    Nat.testBit ((Region.to_raw r).block_states.getD j 0) b = true ↔
      (64 * j + b < r.num_bits * r.blocks.length ∧
        Nat.testBit (r.blocks.getD ((64 * j + b) / r.num_bits) 0)
          ((64 * j + b) % r.num_bits) = true) := by
  have hnb : 0 < r.num_bits := numBitsFrom_pos _
  have hbs : (Region.to_raw r).block_states = pack r.num_bits r.blocks := rfl
  rw [hbs] at hj ⊢
  unfold pack at hj ⊢
  set bits := (r.blocks.map (bitsOfNat r.num_bits)).flatten with hbits
  have h2 : ∀ x ∈ bits, x < 2 := by
    intro x hx
    rw [hbits, List.mem_flatten] at hx
    obtain ⟨c, hc, hxc⟩ := hx
    rw [List.mem_map] at hc
    obtain ⟨w, _, rfl⟩ := hc
    exact bitsOfNat_lt_two _ w x hxc
  rw [List.length_map] at hj
  have hword : ((chunksOf 64 bits).map natOfBits).getD j 0
      = natOfBits ((chunksOf 64 bits).getD j []) := by
    rw [List.getD_eq_getElem?_getD, List.getElem?_map,
      List.getElem?_eq_getElem hj]
    simp only [Option.map_some', Option.getD_some]
    rw [List.getD_eq_getElem?_getD, List.getElem?_eq_getElem hj]
    rfl
  rw [hword, chunksOf_getD 64 (by omega) j bits]
  have hsub : ∀ x ∈ (bits.drop (64 * j)).take 64, x < 2 := by
    intro x hx
    exact h2 x (List.drop_subset _ _ (List.take_subset _ _ hx))
  rw [natOfBits_testBit _ hsub b]
  have hchunk : ((bits.drop (64 * j)).take 64).getD b 0
      = bits.getD (64 * j + b) 0 := by
    rw [List.getD_eq_getElem?_getD, List.getElem?_take, if_pos hb,
      List.getElem?_drop, ← List.getD_eq_getElem?_getD]
  rw [hchunk]
  have hlen : bits.length = r.num_bits * r.blocks.length :=
    length_flatten_bits _ _
  rcases Nat.lt_or_ge (64 * j + b) (r.num_bits * r.blocks.length) with hin | hout
  · rw [flatten_bits_getD _ hnb _ _ (by omega)]
    rw [testBit_iff_and_one]
    constructor
    · intro h; exact ⟨hin, h⟩
    · intro h; exact h.2
  · have hdef : bits.getD (64 * j + b) 0 = 0 := by
      rw [List.getD_eq_getElem?_getD, List.getElem?_eq_none (by omega)]
      rfl
    rw [hdef]
    constructor
    · intro h; omega
    · intro h; omega

/-- C2 (witness): the dense characterization evaluated on word 0, bit 63 of
`cEx2`: the bit is set because it is bit `63 % 3 = 0` of identifier
`63 / 3 = 21`, whose value is 1. -/
theorem to_raw_packing_dense_bits_witness :
    Nat.testBit ((Region.to_raw cEx2).block_states.getD 0 0) 63 = true ↔
      (64 * 0 + 63 < cEx2.num_bits * cEx2.blocks.length ∧
        Nat.testBit (cEx2.blocks.getD ((64 * 0 + 63) / cEx2.num_bits) 0)
          ((64 * 0 + 63) % cEx2.num_bits) = true) :=
  to_raw_packing_dense_bits cEx2 0 63 (by decide) (by decide)
